import Mathlib

/-!
Verification of `verydisco` (`src/verydisco/schemas.py`): a generator that
turns Google service-discovery schema documents into pydantic model source
text.  The development shallowly embeds the schema walker
(`SchemaParser.__init__`, `schema_as_string`, `parse_property`,
`valid_property_name`, `format_docstring`, `write_models`) as executable
Lean functions and proves the spec's claims about them.

Modelling notes:
* A schema dict is the inductive tree `SchemaNode`; only the keys the code
  reads are modelled (`type`, `$ref`, `properties`, `items`, `description`,
  `default`, `id`, `additionalProperties`).  An absent `properties` key and
  an empty `properties` dict are indistinguishable to the code (the loop
  body runs zero times either way), so both are the empty list.
* Python raises `KeyError` for a missing `$ref` (after a missing `type`)
  and for missing `items`; these are the `SchemaErr.missingType` and
  `SchemaErr.missingItems` outcomes.  The spec calls the first one
  `SchemaError`.
* The recursion of `parse_property` / `schema_as_string` is run on explicit
  fuel (`SchemaErr.fuel` marks exhaustion) so that every function is a
  plain structural recursion that the kernel can evaluate; claims hold for
  every sufficiently large fuel value.
* `self.model_defs[id_] = result` only ever writes, never reads, so the
  walk is embedded as the chronological list of `(id_, result)` assignment
  events; `model_defs` is the left fold of `dictInsert` (Python dict
  assignment: overwriting keeps the original insertion position, a fresh
  key is appended) over those events.
* Defaults are JSON literals (`JVal`); `pyRepr` is Python `repr` on the
  corresponding Python values (strings without quotes or escapes in them).
  A JSON `null` default decodes to Python `None`, which the code cannot
  tell apart from an absent `default` key, so `JVal` has no null.
* `textwrap.TextWrapper(subsequent_indent=indent).fill` is modelled by
  `textwrap_fill`: greedy word wrap at the default width 70, counting the
  subsequent indent, for text whose words are single-space separated and
  no longer than the width (the code's inputs of interest; the stdlib
  would additionally break over-long words and keep runs of whitespace).
-/

namespace Verydisco

/-- A JSON literal usable as a `default` value in a schema. -/
inductive JVal : Type where
  | bool (b : Bool)
  | int (n : Int)
  | str (s : String)
deriving DecidableEq

/-- The single-quote character, written via its code point. -/
def squote : String := String.mk [Char.ofNat 39]

/-- Python `repr` of the Python value a `JVal` decodes to
(for strings that contain no quotes or escape-worthy characters). -/
def pyRepr : JVal → String
  | .bool true => "True"
  | .bool false => "False"
  | .int n => toString n
  | .str s => squote ++ s ++ squote

/-- One schema dict: the keys `schemas.py` reads.  `additionalProperties`
is recognised and ignored by the code (`if "additionalProperties" in
schema: pass`), so it is carried but never consulted. -/
inductive SchemaNode : Type where
  | mk (type? : Option String) (ref? : Option String)
       (properties : List (String × SchemaNode))
       (items? : Option SchemaNode)
       (description : String)
       (default? : Option JVal)
       (id? : Option String)
       (additionalProperties : Bool) : SchemaNode

def SchemaNode.type? : SchemaNode → Option String
  | .mk t _ _ _ _ _ _ _ => t

def SchemaNode.ref? : SchemaNode → Option String
  | .mk _ r _ _ _ _ _ _ => r

def SchemaNode.properties : SchemaNode → List (String × SchemaNode)
  | .mk _ _ ps _ _ _ _ _ => ps

def SchemaNode.items? : SchemaNode → Option SchemaNode
  | .mk _ _ _ it _ _ _ _ => it

def SchemaNode.description : SchemaNode → String
  | .mk _ _ _ _ d _ _ _ => d

def SchemaNode.default? : SchemaNode → Option JVal
  | .mk _ _ _ _ _ d _ _ => d

def SchemaNode.id? : SchemaNode → Option String
  | .mk _ _ _ _ _ _ i _ => i

/-- `try: type_ = schema["type"] except KeyError: type_ = schema["$ref"]`. -/
def effType (s : SchemaNode) : Option String :=
  match s.type? with
  | some t => some t
  | none => s.ref?

/-- `SchemaParser.simple_types`, in source order. -/
def simple_types : List (String × String) :=
  [("any", "Any"), ("boolean", "bool"), ("integer", "int"),
   ("null", "None"), ("number", "float"), ("string", "str")]

/-- `set(keyword.kwlist) | set(dir(builtins))` on the CPython 3.8 the
repository targets (`noxfile.py` runs 3.7/3.8); listed as keywords then
builtins, duplicates (`False`, `None`, `True`) left in place. -/
def python_keywords : List String :=
  ["False", "None", "True", "and", "as", "assert", "async", "await",
   "break", "class", "continue", "def", "del", "elif", "else", "except",
   "finally", "for", "from", "global", "if", "import", "in", "is",
   "lambda", "nonlocal", "not", "or", "pass", "raise", "return", "try",
   "while", "with", "yield",
   "ArithmeticError", "AssertionError", "AttributeError", "BaseException",
   "BlockingIOError", "BrokenPipeError", "BufferError", "BytesWarning",
   "ChildProcessError", "ConnectionAbortedError", "ConnectionError",
   "ConnectionRefusedError", "ConnectionResetError", "DeprecationWarning",
   "EOFError", "Ellipsis", "EnvironmentError", "Exception",
   "FileExistsError", "FileNotFoundError", "FloatingPointError",
   "FutureWarning", "GeneratorExit", "IOError", "ImportError",
   "ImportWarning", "IndentationError", "IndexError", "InterruptedError",
   "IsADirectoryError", "KeyError", "KeyboardInterrupt", "LookupError",
   "MemoryError", "ModuleNotFoundError", "NameError",
   "NotADirectoryError", "NotImplemented", "NotImplementedError",
   "OSError", "OverflowError", "PendingDeprecationWarning",
   "PermissionError", "ProcessLookupError", "RecursionError",
   "ReferenceError", "ResourceWarning", "RuntimeError", "RuntimeWarning",
   "StopAsyncIteration", "StopIteration", "SyntaxError", "SyntaxWarning",
   "SystemError", "SystemExit", "TabError", "TimeoutError", "TypeError",
   "UnboundLocalError", "UnicodeDecodeError", "UnicodeEncodeError",
   "UnicodeError", "UnicodeTranslateError", "UnicodeWarning",
   "UserWarning", "ValueError", "Warning", "ZeroDivisionError",
   "__build_class__", "__debug__", "__doc__", "__import__", "__loader__",
   "__name__", "__package__", "__spec__",
   "abs", "all", "any", "ascii", "bin", "bool", "breakpoint", "bytearray",
   "bytes", "callable", "chr", "classmethod", "compile", "complex",
   "copyright", "credits", "delattr", "dict", "dir", "divmod",
   "enumerate", "eval", "exec", "exit", "filter", "float", "format",
   "frozenset", "getattr", "globals", "hasattr", "hash", "help", "hex",
   "id", "input", "int", "isinstance", "issubclass", "iter", "len",
   "license", "list", "locals", "map", "max", "memoryview", "min", "next",
   "object", "oct", "open", "ord", "pow", "print", "property", "quit",
   "range", "repr", "reversed", "round", "set", "setattr", "slice",
   "sorted", "staticmethod", "str", "sum", "super", "tuple", "type",
   "vars", "zip"]

/-- `SchemaParser.valid_property_name`. -/
def valid_property_name (name : String) : String :=
  if name ∈ python_keywords then name ++ "_" else name

/-- Python truthiness of an optional string (`None` and `""` are falsy). -/
def truthyStr : Option String → Option String
  | some s => if s = "" then none else some s
  | none => none

/-- Python `str.capitalize`: first character upper-cased, rest lowered. -/
def pyCapitalize (s : String) : String :=
  match s.data with
  | [] => ""
  | c :: cs => String.mk (c.toUpper :: cs.map Char.toLower)

/-- The `id_` selection of `schema_as_string`: an explicit truthy `id`
wins, then the caller-supplied `class_name`, else a made-up
`"_" + concatenated capitalized field names`. -/
def chooseId (id? class_name : Option String) (field_names : List String) :
    String :=
  match truthyStr id? with
  | some i => i
  | none =>
    match truthyStr class_name with
    | some c => c
    | none => "_" ++ String.join (field_names.map pyCapitalize)

/-- Split text into whitespace-free words (the effect of
`TextWrapper`'s whitespace munging and chunking on single-spaced text);
`cur` accumulates the current word reversed. -/
def splitWordsCore : List Char → List Char → List String
  | [], cur => if cur.isEmpty then [] else [String.mk cur.reverse]
  | c :: cs, cur =>
    if c.isWhitespace then
      if cur.isEmpty then splitWordsCore cs []
      else String.mk cur.reverse :: splitWordsCore cs []
    else splitWordsCore cs (c :: cur)

def splitWords (text : String) : List String :=
  splitWordsCore text.data []

/-- Greedy line filling: `cur` is the line being built (the first line has
no indent), a word is appended while the line stays within `width`,
otherwise the line is emitted and a new one starts as `indent ++ word`. -/
def wrapGo (width : Nat) (indent : String) (cur : String) :
    List String → List String
  | [] => [cur]
  | w :: ws =>
    if cur.length + 1 + w.length ≤ width then
      wrapGo width indent (cur ++ " " ++ w) ws
    else
      cur :: wrapGo width indent (indent ++ w) ws

def wrapLines (width : Nat) (indent : String) : List String → List String
  | [] => []
  | w :: ws => wrapGo width indent w ws

/-- `textwrap.TextWrapper(subsequent_indent=indent).fill(text)`:
greedy fill at the default width 70. -/
def textwrap_fill (indent : String) (text : String) : String :=
  String.intercalate "\n" (wrapLines 70 indent (splitWords text))

/-- `SchemaParser.format_docstring`. -/
def format_docstring (text : String) (indent : String) : String :=
  if text ≠ "" then
    let result := indent ++ "\"\"\"" ++ textwrap_fill indent text
    let max_line_length := 80
    if result.length > max_line_length - "\"\"\"".length then
      result ++ "\n" ++ indent ++ "\"\"\"" ++ "\n"
    else
      result ++ "\"\"\"" ++ "\n"
  else
    ""

/-- A resolved field: `(name, type_, default)` as in `schema_as_string`. -/
abbrev FieldT := String × String × Option String

/-- One field line of the class body; `if default:` is Python truthiness
on the repr string. -/
def field_line (f : FieldT) : String :=
  match f.2.2 with
  | some default =>
    if default ≠ "" then f.1 ++ ": " ++ f.2.1 ++ " = " ++ default
    else f.1 ++ ": " ++ f.2.1
  | none => f.1 ++ ": " ++ f.2.1

/-- The class-definition string `schema_as_string` assembles for one
record (header, docstring, field lines, `pass` for an empty body). -/
def classString (id_ : String) (docstring : String)
    (properties : List FieldT) : String :=
  let indent := "    "
  let header := "class " ++ id_ ++ "(pydantic.BaseModel):\n" ++ docstring
  let body := properties.foldl
    (fun result f => result ++ indent ++ field_line f ++ "\n") header
  if properties.isEmpty && docstring == "" then body ++ indent ++ "pass\n"
  else body

/-- The failure modes of the walk: the two `KeyError`s the Python code can
raise (the spec's `SchemaError` for a node with neither `type` nor `$ref`,
and the missing-`items` error on an array), plus fuel exhaustion of the
embedding. -/
inductive SchemaErr : Type where
  | missingType
  | missingItems
  | fuel
deriving DecidableEq

/-- The chronological list of `self.model_defs[id_] = result` assignments. -/
abbrev Events := List (String × String)

/-- The pending call of the mutual recursion: a field resolution
(`parse_property`), the `properties` loop of `schema_as_string`, or a
whole-record build (`schema_as_string`). -/
inductive Walk : Type where
  | prop (s : SchemaNode) (name : String)
  | fields (ps : List (String × SchemaNode))
  | schema (s : SchemaNode) (class_name : Option String)

/-- Result type of each kind of call. -/
def WalkRes : Walk → Type
  | .prop _ _ => Events × String × Option String
  | .fields _ => Events × List FieldT
  | .schema _ _ => Events

/-- The fueled interpreter of `parse_property` / `schema_as_string`.
Branches follow the source line by line; registrations are returned as
events in chronological order. -/
def run : (fuel : Nat) → (t : Walk) → Except SchemaErr (WalkRes t)
  | 0, _ => .error .fuel
  | fuel+1, .prop s name =>
    match effType s with
    | none => .error .missingType
    | some type_ =>
      match simple_types.lookup type_ with
      | some py_type =>
        .ok ([], py_type, s.default?.map pyRepr)
      | none =>
        if type_ = "object" then
          let class_name := "_" ++ name
          match run fuel (.schema s (some class_name)) with
          | .ok evs => .ok (evs, "\"" ++ class_name ++ "\"", none)
          | .error e => .error e
        else if type_ = "array" then
          match s.items? with
          | none => .error .missingItems
          | some items =>
            match run fuel (.prop items name) with
            | .ok (evs, py_type, default) =>
              .ok (evs, "List[" ++ py_type ++ "]", default)
            | .error e => .error e
        else
          .ok ([], "\"" ++ type_ ++ "\"", none)
  | _+1, .fields [] => .ok ([], [])
  | fuel+1, .fields ((pname, pschema) :: rest) =>
    let pname := valid_property_name pname
    match run fuel (.prop pschema pname) with
    | .error e => .error e
    | .ok (evs, prop_type, pdefault) =>
      match run fuel (.fields rest) with
      | .error e => .error e
      | .ok (evsR, fs) => .ok (evs ++ evsR, (pname, prop_type, pdefault) :: fs)
  | fuel+1, .schema s class_name =>
    match run fuel (.fields s.properties) with
    | .error e => .error e
    | .ok (evs, properties) =>
      let docstring := format_docstring s.description "    "
      let id_ := chooseId s.id? class_name (properties.map (fun f => f.1))
      .ok (evs ++ [(id_, classString id_ docstring properties)])

/-- `SchemaParser.parse_property` (with the walk's registrations made
explicit as events). -/
def parse_property (fuel : Nat) (s : SchemaNode) (name : String) :
    Except SchemaErr (Events × String × Option String) :=
  run fuel (.prop s name)

/-- `SchemaParser.schema_as_string`, returning its registrations. -/
def schema_as_string (fuel : Nat) (s : SchemaNode)
    (class_name : Option String) : Except SchemaErr Events :=
  run fuel (.schema s class_name)

/-- Python dict assignment `d[key] = value`: an existing key keeps its
insertion position and gets the new value, a fresh key is appended. -/
def dictInsert (d : List (String × String)) (key value : String) :
    List (String × String) :=
  if d.any (fun p => p.1 == key) then
    d.map (fun p => if p.1 == key then (key, value) else p)
  else
    d ++ [(key, value)]

/-- Replay the assignment events into a Python dict. -/
def registryOf (evs : Events) : List (String × String) :=
  evs.foldl (fun d e => dictInsert d e.1 e.2) []

/-- The `for name, schema in schemas.items()` loop of
`SchemaParser.__init__`, as the chronological event list. -/
def buildEvents (fuel : Nat) : List (String × SchemaNode) →
    Except SchemaErr Events
  | [] => .ok []
  | (name, schema) :: rest =>
    match schema_as_string fuel schema (some name) with
    | .error e => .error e
    | .ok evs =>
      match buildEvents fuel rest with
      | .error e => .error e
      | .ok evsR => .ok (evs ++ evsR)

/-- `SchemaParser(schemas).model_defs`: the registry after the walk. -/
def model_defs (fuel : Nat) (schemas : List (String × SchemaNode)) :
    Except SchemaErr (List (String × String)) :=
  match buildEvents fuel schemas with
  | .error e => .error e
  | .ok evs => .ok (registryOf evs)

/-- `write_models`: `"\n\n".join(parser.model_defs.values())`. -/
def write_models (fuel : Nat) (schemas : List (String × SchemaNode)) :
    Except SchemaErr String :=
  match model_defs fuel schemas with
  | .error e => .error e
  | .ok defs => .ok (String.intercalate "\n\n" (defs.map (fun p => p.2)))

/-! ### Branch lemmas for the walk -/

/-- Concrete instance of C2: a boolean field with default `True`. -/
def c2node : SchemaNode :=
  .mk (some "boolean") none [] none "" (some (.bool true)) none false

/-- Concrete instance of C9: `{"$ref": "integer", "default": false}`
style node (default chosen boolean to keep repr concrete). -/
def c9node : SchemaNode :=
  .mk none (some "integer") [] none "" (some (.bool false)) none false

/-- Concrete instance of C3: `{"type": "array", "items": {"$ref":
"OtherName"}}` resolves to `List["OtherName"]`. -/
def c3items : SchemaNode :=
  .mk none (some "OtherName") [] none "" none none false

def c3node : SchemaNode :=
  .mk (some "array") none [] (some c3items) "" none none false

/-- A node with no keys at all. -/
def emptyNode : SchemaNode := .mk none none [] none "" none none false

/-- Counterexample to claim C4 as stated: this node has a `type` key
(`"array"`), yet resolving it raises the missing-type SchemaError, because
its `items` child has neither `type` nor `$ref`.  So "for every node that
has at least one of the two keys, no such error is raised" is false. -/
def c4node : SchemaNode :=
  .mk (some "array") none [] (some emptyNode) "" none none false

/-- A field node whose `type` is one of the six simple keywords. -/
def SimpleTyped (s : SchemaNode) : Prop :=
  ∃ t py, s.type? = some t ∧ (t, py) ∈ simple_types

/-- The field a simple-typed property resolves to (the `getD` defaults are
never taken under `SimpleTyped`). -/
def simpleFieldOf (p : String × SchemaNode) : FieldT :=
  (valid_property_name p.1,
   (simple_types.lookup ((p.2.type?).getD "")).getD "",
   p.2.default?.map pyRepr)

/-- A simple string-typed field node. -/
def c1str : SchemaNode := .mk (some "string") none [] none "" none none false

/-- Concrete instance of C1: `{"type": "object", "properties": {"bar":
{"type": "string"}}}` in a field named `foo`. -/
def c1w : SchemaNode :=
  .mk (some "object") none [("bar", c1str)] none "" none none false

/-- Counterexample to claim C1 as stated: a nested object that declares
an explicit `id` (`"Custom"`) is registered under that `id`, not under
`"_" ++` the field name, while the parent still references `"_foo"`; so
"registers a record whose name is the field's sanitized name prefixed
with an underscore" fails for this node. -/
def c1cx : SchemaNode :=
  .mk (some "object") none [("bar", c1str)] none "" none (some "Custom")
    false

/-- Concrete collision: the top-level schema `_foo` and the nested
object field `foo` of `Outer` both register the name `_foo`; the later
definition (the top-level one, with field `baz: int`) wins, `Outer` is
untouched, and nothing fails. -/
def c8int : SchemaNode := .mk (some "integer") none [] none "" none none false

def c8outer : SchemaNode :=
  .mk (some "object") none [("foo", c1w)] none "" none none false

def c8fooTop : SchemaNode :=
  .mk (some "object") none [("baz", c8int)] none "" none none false

def c8schemas : List (String × SchemaNode) :=
  [("Outer", c8outer), ("_foo", c8fooTop)]

def c8evs : Events :=
  [("_foo", "class _foo(pydantic.BaseModel):\n    bar: str\n"),
   ("Outer", "class Outer(pydantic.BaseModel):\n    foo: \"_foo\"\n"),
   ("_foo", "class _foo(pydantic.BaseModel):\n    baz: int\n")]

/-- A string ending in a newline. -/
def NlTerminated (s : String) : Prop := ∃ t, s = t ++ "\n"

/-- Two empty records: the emitted text carries the two blank lines. -/
def c7empty : SchemaNode := .mk (some "object") none [] none "" none none false

def c7schemas : List (String × SchemaNode) :=
  [("A", c7empty), ("B", c7empty)]

def c7evs : Events :=
  [("A", "class A(pydantic.BaseModel):\n    pass\n"),
   ("B", "class B(pydantic.BaseModel):\n    pass\n")]

def nlCount (s : String) : Nat := s.data.count (Char.ofNat 10)

theorem effType_of_type {s : SchemaNode} {t : String} (h : s.type? = some t) :
    effType s = some t := by
  unfold effType; rw [h]

theorem effType_of_ref {s : SchemaNode} (h : s.type? = none) :
    effType s = s.ref? := by
  unfold effType; rw [h]

/-- A node with neither `type` nor `$ref` makes `parse_property` fail at
once with the missing-type error (Python's `KeyError` on `$ref`). -/
theorem parse_property_missing (fuel : Nat) (s : SchemaNode) (name : String)
    (h : effType s = none) :
    parse_property (fuel+1) s name = .error .missingType := by
  simp only [parse_property, run, h]

/-- The simple-type branch of `parse_property`. -/
theorem parse_property_simple (fuel : Nat) (s : SchemaNode)
    (name t py : String) (heff : effType s = some t)
    (hl : simple_types.lookup t = some py) :
    parse_property (fuel+1) s name = .ok ([], py, s.default?.map pyRepr) := by
  simp only [parse_property, run, heff, hl]

/-- The fallback `$ref` branch of `parse_property`: a non-simple,
non-object, non-array type name resolves to a quoted forward reference. -/
theorem parse_property_named_ref (fuel : Nat) (s : SchemaNode)
    (name t : String) (heff : effType s = some t)
    (hl : simple_types.lookup t = none)
    (h2 : t ≠ "object") (h3 : t ≠ "array") :
    parse_property (fuel+1) s name = .ok ([], "\"" ++ t ++ "\"", none) := by
  simp only [parse_property, run, heff, hl]
  rw [if_neg h2, if_neg h3]

/-- The array branch of `parse_property` wraps the item resolution in
`List[...]` and propagates its default and its registrations. -/
theorem parse_property_array_step (fuel : Nat) (s it : SchemaNode)
    (name : String) (heff : effType s = some "array")
    (hi : s.items? = some it) (evs : Events) (ty : String)
    (d : Option String)
    (hrec : parse_property fuel it name = .ok (evs, ty, d)) :
    parse_property (fuel+1) s name = .ok (evs, "List[" ++ ty ++ "]", d) := by
  have hla : simple_types.lookup "array" = none := rfl
  unfold parse_property at hrec
  simp only [parse_property, run, heff, hla, hi, hrec]
  rw [if_neg (show ¬("array" : String) = "object" by decide)]
  exact if_pos trivial

/-- The array branch fails when the node has no `items` key
(Python's `KeyError` on `items`). -/
theorem parse_property_array_noitems (fuel : Nat) (s : SchemaNode)
    (name : String) (heff : effType s = some "array")
    (hi : s.items? = none) :
    parse_property (fuel+1) s name = .error .missingItems := by
  have hla : simple_types.lookup "array" = none := rfl
  simp only [parse_property, run, heff, hla, hi]
  rw [if_neg (show ¬("array" : String) = "object" by decide)]
  exact if_pos trivial

/-- The object branch of `parse_property`: the node is rebuilt as a
record named `"_" ++ name` and the field is typed as a quoted reference
to that name, with no default. -/
theorem parse_property_object_step (fuel : Nat) (s : SchemaNode)
    (name : String) (heff : effType s = some "object") (evs : Events)
    (hs : schema_as_string fuel s (some ("_" ++ name)) = .ok evs) :
    parse_property (fuel+1) s name = .ok (evs, "\"_" ++ name ++ "\"", none) := by
  have hlo : simple_types.lookup "object" = none := rfl
  unfold schema_as_string at hs
  simp only [parse_property, run, heff, hlo, hs]
  rfl

/-! ### Claims C2, C9, C3, C4 -/

/-- Helper: a string whose first character is not a double quote is never
equal to a quoted reference `"\"" ++ t ++ "\""`. -/
theorem ne_quoted_of_head (py t : String) (c : Char)
    (hc : py.data.head? = some c) (hq : c ≠ '"') :
    py ≠ "\"" ++ t ++ "\"" := by
  intro h
  apply hq
  have hd := congrArg (fun x : String => x.data.head?) h
  simp only [String.data_append] at hd
  rw [hc] at hd
  exact Option.some.inj hd

/-- Claim C2: every field schema node whose `type` is one of the six
simple-type keywords resolves to exactly the fixed primitive mapping
(`boolean→bool`, `integer→int`, `string→str`, `number→float`,
`null→None`, `any→Any`), registering nothing and carrying the repr of a
declared default. -/
theorem claim_C2_simple_type_mapping (fuel : Nat) (s : SchemaNode)
    (name t py : String) (ht : s.type? = some t)
    (hmap : (t, py) ∈ [("boolean", "bool"), ("integer", "int"),
      ("string", "str"), ("number", "float"), ("null", "None"),
      ("any", "Any")]) :
    parse_property (fuel+1) s name = .ok ([], py, s.default?.map pyRepr) := by
  have heff : effType s = some t := effType_of_type ht
  simp only [List.mem_cons, List.not_mem_nil, or_false, Prod.mk.injEq] at hmap
  rcases hmap with ⟨rfl, rfl⟩ | ⟨rfl, rfl⟩ | ⟨rfl, rfl⟩ | ⟨rfl, rfl⟩ |
    ⟨rfl, rfl⟩ | ⟨rfl, rfl⟩ <;>
    exact parse_property_simple fuel s name _ _ heff rfl

theorem claim_C2_witness :
    parse_property 1 c2node "flag" = .ok ([], "bool", some "True") :=
  (claim_C2_simple_type_mapping 0 c2node "flag" "boolean" "bool" rfl
    (by simp)).trans rfl

/-- Claim C9: a node with no `type` key whose `$ref` names one of the six
simple-type keywords resolves to the corresponding primitive (with any
declared default), not to a quoted `Named` reference of that name. -/
theorem claim_C9_ref_simple_keyword (fuel : Nat) (s : SchemaNode)
    (name t py : String) (ht : s.type? = none) (hr : s.ref? = some t)
    (hmap : (t, py) ∈ simple_types) :
    parse_property (fuel+1) s name = .ok ([], py, s.default?.map pyRepr)
      ∧ py ≠ "\"" ++ t ++ "\"" := by
  have heff : effType s = some t := (effType_of_ref ht).trans hr
  simp only [simple_types, List.mem_cons, List.not_mem_nil, or_false,
    Prod.mk.injEq] at hmap
  rcases hmap with ⟨rfl, rfl⟩ | ⟨rfl, rfl⟩ | ⟨rfl, rfl⟩ | ⟨rfl, rfl⟩ |
    ⟨rfl, rfl⟩ | ⟨rfl, rfl⟩ <;>
    exact ⟨parse_property_simple fuel s name _ _ heff rfl,
      ne_quoted_of_head _ _ _ rfl (by decide)⟩

theorem claim_C9_witness :
    parse_property 1 c9node "n" = .ok ([], "int", some "False")
      ∧ "int" ≠ "\"" ++ "integer" ++ "\"" := by
  have h := claim_C9_ref_simple_keyword 0 c9node "n" "integer" "int"
    rfl rfl (by simp [simple_types])
  exact ⟨h.1.trans rfl, h.2⟩

/-- Claim C3: an array field resolves its `items` node recursively as a
field schema, wraps the resulting type in `List[...]`, and propagates the
item resolution's default (and registrations) unchanged; in particular an
array whose items carry a `$ref` to a (non-simple, non-object, non-array)
record name `r` resolves to `List["r"]`. -/
theorem claim_C3_array_wraps_items (fuel : Nat) (s it : SchemaNode)
    (name : String) (ht : s.type? = some "array")
    (hi : s.items? = some it) :
    (∀ evs ty d, parse_property fuel it name = .ok (evs, ty, d) →
       parse_property (fuel+1) s name = .ok (evs, "List[" ++ ty ++ "]", d))
  ∧ (∀ r, it.type? = none → it.ref? = some r →
       simple_types.lookup r = none → r ≠ "object" → r ≠ "array" →
       parse_property (fuel+2) s name =
         .ok ([], "List[" ++ ("\"" ++ r ++ "\"") ++ "]", none)) := by
  have heff : effType s = some "array" := effType_of_type ht
  refine ⟨fun evs ty d hrec =>
    parse_property_array_step fuel s it name heff hi evs ty d hrec,
    fun r hrt hrr hrl hr2 hr3 => ?_⟩
  have hitem : parse_property (fuel+1) it name =
      .ok ([], "\"" ++ r ++ "\"", none) :=
    parse_property_named_ref fuel it name r
      ((effType_of_ref hrt).trans hrr) hrl hr2 hr3
  exact parse_property_array_step (fuel+1) s it name heff hi _ _ _ hitem

theorem claim_C3_witness :
    parse_property 2 c3node "foo" =
      .ok ([], "List[" ++ ("\"" ++ "OtherName" ++ "\"") ++ "]", none) :=
  (claim_C3_array_wraps_items 0 c3node c3items "foo" rfl rfl).2
    "OtherName" rfl rfl rfl (by decide) (by decide)

/-- Claim C4 (amended): a field node with neither `type` nor `$ref` fails
immediately with the missing-type error; a node that has one of the two
keys never triggers that error itself — the resolution of such a node can
only fail through the recursive resolution of its nested nodes (array
`items`, object properties), as the counterexample shows. -/
theorem claim_C4_missing_type_error (fuel : Nat) (s : SchemaNode)
    (name : String) :
    (effType s = none → parse_property (fuel+1) s name = .error .missingType)
  ∧ (∀ t, effType s = some t → t ≠ "object" → t ≠ "array" →
       ∃ r, parse_property (fuel+1) s name = .ok r)
  ∧ (∀ it r, effType s = some "array" → s.items? = some it →
       parse_property fuel it name = .ok r →
       ∃ r2, parse_property (fuel+1) s name = .ok r2)
  ∧ (∀ evs, effType s = some "object" →
       schema_as_string fuel s (some ("_" ++ name)) = .ok evs →
       ∃ r2, parse_property (fuel+1) s name = .ok r2) := by
  refine ⟨fun h => parse_property_missing fuel s name h,
    fun t heff h2 h3 => ?_, fun it r heff hi hrec => ?_,
    fun evs heff hs => ?_⟩
  · cases hl : simple_types.lookup t with
    | some py => exact ⟨_, parse_property_simple fuel s name t py heff hl⟩
    | none => exact ⟨_, parse_property_named_ref fuel s name t heff hl h2 h3⟩
  · obtain ⟨evs, ty, d⟩ := r
    exact ⟨_, parse_property_array_step fuel s it name heff hi evs ty d hrec⟩
  · exact ⟨_, parse_property_object_step fuel s name heff evs hs⟩

theorem claim_C4_counterexample :
    c4node.type? = some "array"
  ∧ parse_property 2 c4node "f" = .error .missingType :=
  ⟨rfl, rfl⟩

theorem claim_C4_witness :
    parse_property 1 emptyNode "f" = .error .missingType :=
  (claim_C4_missing_type_error 0 emptyNode "f").1 rfl

/-! ### Claims C1 and C10: nested objects and the synthesized name -/

theorem lookup_of_mem_simple (t py : String) (h : (t, py) ∈ simple_types) :
    simple_types.lookup t = some py := by
  simp only [simple_types, List.mem_cons, List.not_mem_nil, or_false,
    Prod.mk.injEq] at h
  rcases h with ⟨rfl, rfl⟩ | ⟨rfl, rfl⟩ | ⟨rfl, rfl⟩ | ⟨rfl, rfl⟩ |
    ⟨rfl, rfl⟩ | ⟨rfl, rfl⟩ <;> rfl

/-- The `properties` loop of `schema_as_string` over simple-typed fields:
no registrations, and the field list is the pointwise resolution. -/
theorem run_fields_simple (ps : List (String × SchemaNode)) :
    ∀ fuel : Nat, ps.length < fuel → (∀ p ∈ ps, SimpleTyped p.2) →
    run fuel (.fields ps) = .ok ([], ps.map simpleFieldOf) := by
  induction ps with
  | nil =>
    intro fuel hf _
    match fuel, hf with
    | g+1, _ => rfl
  | cons p rest ih =>
    intro fuel hf hs
    obtain ⟨pn, psch⟩ := p
    match fuel, hf with
    | g+1, hf =>
      have hg : rest.length < g := by
        simpa [Nat.succ_lt_succ_iff] using hf
      match g, hg with
      | g'+1, hg =>
        obtain ⟨t, py, ht, hmem⟩ := hs (pn, psch) (List.mem_cons_self _ _)
        have hl := lookup_of_mem_simple t py hmem
        have hrest : run (g'+1) (.fields rest) =
            .ok ([], rest.map simpleFieldOf) :=
          ih (g'+1) hg (fun q hq => hs q (List.mem_cons_of_mem _ hq))
        have hfield : simpleFieldOf (pn, psch) =
            (valid_property_name pn, py, psch.default?.map pyRepr) := by
          simp [simpleFieldOf, ht, hl]
        simp only [run, effType_of_type ht, hl, hrest, List.map_cons,
          hfield, List.nil_append, List.append_nil]

/-- `schema_as_string` assembles the record from the resolved fields. -/
theorem run_schema_step (fuel : Nat) (s : SchemaNode) (cn : Option String)
    (evs : Events) (fs : List FieldT)
    (hf : run fuel (.fields s.properties) = .ok (evs, fs)) :
    run (fuel+1) (.schema s cn) =
      .ok (evs ++ [(chooseId s.id? cn (fs.map (fun f => f.1)),
        classString (chooseId s.id? cn (fs.map (fun f => f.1)))
          (format_docstring s.description "    ") fs)]) := by
  simp only [run, hf]

theorem chooseId_of_truthy_id {i? : Option String} {i : String}
    (h : truthyStr i? = some i) (cn : Option String) (ns : List String) :
    chooseId i? cn ns = i := by
  unfold chooseId; rw [h]

theorem chooseId_of_class {i? : Option String} (h : truthyStr i? = none)
    {cn : Option String} {c : String} (hc : truthyStr cn = some c)
    (ns : List String) : chooseId i? cn ns = c := by
  unfold chooseId; rw [h, hc]

theorem underscore_append_ne_empty (name : String) : "_" ++ name ≠ "" := by
  intro h
  have hlen := congrArg String.length h
  rw [String.length_append] at hlen
  rw [show ("_" : String).length = 1 from rfl,
    show ("" : String).length = 0 from rfl] at hlen
  omega

theorem truthyStr_underscore (name : String) :
    truthyStr (some ("_" ++ name)) = some ("_" ++ name) := by
  show (if "_" ++ name = "" then none else some ("_" ++ name)) =
    some ("_" ++ name)
  rw [if_neg (underscore_append_ne_empty name)]

theorem truthyStr_of_ne {i : String} (h : i ≠ "") :
    truthyStr (some i) = some i := by
  show (if i = "" then none else some i) = some i
  rw [if_neg h]

/-- Python dict assignment under a fresh key appends one entry. -/
theorem dictInsert_fresh (d : List (String × String)) (k v : String)
    (h : k ∉ d.map Prod.fst) : dictInsert d k v = d ++ [(k, v)] := by
  unfold dictInsert
  rw [if_neg]
  intro hc
  rw [List.any_eq_true] at hc
  obtain ⟨p, hp, he⟩ := hc
  exact h (List.mem_map.2 ⟨p, hp, by simpa using he⟩)

/-- Claim C1 (amended): a field schema node with `type == "object"` that
does not declare a truthy explicit `id` — nodes with an explicit `id`
register under that `id` instead, see the counterexample and C10 — and
whose own properties are all simple-typed, registers exactly one record,
named by prefixing the field's (sanitized) name with `"_"`; the parent
field's resolved type is a quoted reference to that name, with no
default; folding the registration into any registry not already holding
the name appends exactly one entry. -/
theorem claim_C1_nested_object_registers_one (fuel : Nat) (s : SchemaNode)
    (name : String) (ht : s.type? = some "object")
    (hid : truthyStr s.id? = none)
    (hsimple : ∀ p ∈ s.properties, SimpleTyped p.2)
    (hfuel : s.properties.length + 2 < fuel) :
    parse_property fuel s name =
      .ok ([("_" ++ name,
             classString ("_" ++ name) (format_docstring s.description "    ")
               (s.properties.map simpleFieldOf))],
           "\"_" ++ name ++ "\"", none)
  ∧ ∀ dct : List (String × String), ("_" ++ name) ∉ dct.map Prod.fst →
      dictInsert dct ("_" ++ name)
          (classString ("_" ++ name) (format_docstring s.description "    ")
            (s.properties.map simpleFieldOf)) =
        dct ++ [("_" ++ name,
          classString ("_" ++ name) (format_docstring s.description "    ")
            (s.properties.map simpleFieldOf))] := by
  obtain ⟨g, rfl⟩ : ∃ g, fuel = g + 2 := ⟨fuel - 2, by omega⟩
  have hfields : run g (.fields s.properties) =
      .ok ([], s.properties.map simpleFieldOf) :=
    run_fields_simple s.properties g (by omega) hsimple
  have hschema := run_schema_step g s (some ("_" ++ name)) [] _ hfields
  rw [chooseId_of_class hid (truthyStr_underscore name)] at hschema
  have hmain := parse_property_object_step (g+1) s name
    (effType_of_type ht) _ hschema
  refine ⟨hmain.trans (by rw [List.nil_append]), fun dct hd => ?_⟩
  exact dictInsert_fresh dct _ _ hd

theorem claim_C1_witness :
    parse_property 4 c1w "foo" =
      .ok ([("_foo", "class _foo(pydantic.BaseModel):\n    bar: str\n")],
        "\"_foo\"", none)
  ∧ dictInsert [("M", "x")] "_foo"
      "class _foo(pydantic.BaseModel):\n    bar: str\n" =
      [("M", "x"),
       ("_foo", "class _foo(pydantic.BaseModel):\n    bar: str\n")] := by
  have h := claim_C1_nested_object_registers_one 4 c1w "foo" rfl rfl
    (by
      intro p hp
      simp only [c1w, SchemaNode.properties, List.mem_cons,
        List.not_mem_nil, or_false] at hp
      subst hp
      exact ⟨"string", "str", rfl, by decide⟩)
    (by simp [c1w, SchemaNode.properties])
  exact ⟨h.1.trans rfl, (h.2 [("M", "x")] (by decide)).trans rfl⟩

theorem claim_C1_counterexample :
    c1cx.type? = some "object"
  ∧ parse_property 4 c1cx "foo" =
      .ok ([("Custom", "class Custom(pydantic.BaseModel):\n    bar: str\n")],
        "\"_foo\"", none)
  ∧ ("Custom" : String) ≠ "_foo" :=
  ⟨rfl, rfl, by decide⟩

/-- Claim C10: a nested object field declaring an explicit `id` different
from `"_" ++` the sanitized field name registers the nested record under
the `id` value, while the parent field's type stays a quoted reference to
`"_" ++ name` — a name the registration does not carry. -/
theorem claim_C10_explicit_id_shadow (fuel : Nat) (s : SchemaNode)
    (name i : String) (ht : s.type? = some "object")
    (hid : s.id? = some i) (hne0 : i ≠ "")
    (hsimple : ∀ p ∈ s.properties, SimpleTyped p.2)
    (hfuel : s.properties.length + 2 < fuel) (hne : i ≠ "_" ++ name) :
    parse_property fuel s name =
      .ok ([(i, classString i (format_docstring s.description "    ")
            (s.properties.map simpleFieldOf))],
           "\"_" ++ name ++ "\"", none)
  ∧ ("_" ++ name) ∉
      ([(i, classString i (format_docstring s.description "    ")
          (s.properties.map simpleFieldOf))].map Prod.fst) := by
  obtain ⟨g, rfl⟩ : ∃ g, fuel = g + 2 := ⟨fuel - 2, by omega⟩
  have hfields : run g (.fields s.properties) =
      .ok ([], s.properties.map simpleFieldOf) :=
    run_fields_simple s.properties g (by omega) hsimple
  have hschema := run_schema_step g s (some ("_" ++ name)) [] _ hfields
  have hid' : truthyStr s.id? = some i := by rw [hid]; exact truthyStr_of_ne hne0
  rw [chooseId_of_truthy_id hid' _ _] at hschema
  have hmain := parse_property_object_step (g+1) s name
    (effType_of_type ht) _ hschema
  refine ⟨hmain.trans (by rw [List.nil_append]), ?_⟩
  simp only [List.map_cons, List.map_nil, List.mem_singleton]
  exact fun h => hne h.symm

theorem claim_C10_witness :
    parse_property 4 c1cx "foo" =
      .ok ([("Custom", "class Custom(pydantic.BaseModel):\n    bar: str\n")],
        "\"_foo\"", none)
  ∧ ("_foo" : String) ∉ ["Custom"] := by
  have h := claim_C10_explicit_id_shadow 4 c1cx "foo" "Custom" rfl rfl
    (by decide)
    (by
      intro p hp
      simp only [c1cx, SchemaNode.properties, List.mem_cons,
        List.not_mem_nil, or_false] at hp
      subst hp
      exact ⟨"string", "str", rfl, by decide⟩)
    (by simp [c1cx, SchemaNode.properties]) (by decide)
  exact ⟨h.1.trans rfl, h.2⟩

/-! ### Claim C8: silent overwrite in the registry -/

theorem lookup_map_overwrite (k v : String) :
    ∀ d : List (String × String), d.any (fun p => p.1 == k) = true →
    (d.map (fun p => if p.1 == k then (k, v) else p)).lookup k = some v := by
  intro d
  induction d with
  | nil => intro h; simp at h
  | cons p rest ih =>
    intro h
    simp only [List.map_cons]
    by_cases hp : p.1 = k
    · have hp' : (p.1 == k) = true := by simpa using hp
      rw [if_pos hp']
      simp [List.lookup]
    · have hp' : (p.1 == k) = false := by simpa using hp
      have hk' : (k == p.1) = false := by simpa using (Ne.symm hp)
      have hrest : rest.any (fun p => p.1 == k) = true := by
        simpa [List.any_cons, hp'] using h
      rw [if_neg (by simp [hp'])]
      simp only [List.lookup, hk']
      simpa using ih hrest

theorem lookup_append_of_not_any (k v : String) :
    ∀ d : List (String × String), d.any (fun p => p.1 == k) = false →
    (d ++ [(k, v)]).lookup k = some v := by
  intro d
  induction d with
  | nil => intro _; simp [List.lookup]
  | cons p rest ih =>
    intro h
    have h1 : (p.1 == k) = false ∧ rest.any (fun p => p.1 == k) = false := by
      simpa [List.any_cons] using h
    have hk' : (k == p.1) = false := by
      have hne : ¬ p.1 = k := by simpa using h1.1
      simpa using (Ne.symm hne)
    simp only [List.cons_append]
    simp [List.lookup, hk', ih h1.2]

/-- Assigning `d[k] = v` makes `k` map to `v`. -/
theorem lookup_dictInsert_self (d : List (String × String)) (k v : String) :
    (dictInsert d k v).lookup k = some v := by
  cases hb : d.any (fun p => p.1 == k) with
  | true =>
    unfold dictInsert
    rw [if_pos hb]
    exact lookup_map_overwrite k v d hb
  | false =>
    unfold dictInsert
    rw [if_neg (by simp [hb])]
    exact lookup_append_of_not_any k v d hb

theorem lookup_map_overwrite_other (k v n : String) (hne : n ≠ k) :
    ∀ d : List (String × String),
    (d.map (fun p => if p.1 == k then (k, v) else p)).lookup n =
      d.lookup n := by
  intro d
  induction d with
  | nil => rfl
  | cons p rest ih =>
    simp only [List.map_cons]
    by_cases hp : p.1 = k
    · have hp' : (p.1 == k) = true := by simpa using hp
      have hn2 : (n == p.1) = false := by
        have hx : n ≠ p.1 := by rw [hp]; exact hne
        simpa using hx
      have hn1 : (n == k) = false := by simpa using hne
      rw [if_pos hp']
      simp only [List.lookup, hn1, hn2]
      simpa using ih
    · have hp' : (p.1 == k) = false := by simpa using hp
      rw [if_neg (by simp [hp'])]
      by_cases hn : n = p.1
      · have hn' : (n == p.1) = true := by simpa using hn
        simp [List.lookup, hn']
      · have hn' : (n == p.1) = false := by simpa using hn
        simp only [List.lookup, hn']
        simpa using ih

theorem lookup_append_single_other (k v n : String) (hne : n ≠ k) :
    ∀ d : List (String × String),
    (d ++ [(k, v)]).lookup n = d.lookup n := by
  intro d
  induction d with
  | nil => simp [List.lookup, show (n == k) = false by simpa using hne]
  | cons p rest ih =>
    simp only [List.cons_append]
    by_cases hn : n = p.1
    · have hn' : (n == p.1) = true := by simpa using hn
      simp [List.lookup, hn']
    · have hn' : (n == p.1) = false := by simpa using hn
      simp [List.lookup, hn', ih]

/-- Assigning `d[k] = v` leaves every other key unchanged. -/
theorem lookup_dictInsert_other (d : List (String × String))
    (k v n : String) (hne : n ≠ k) :
    (dictInsert d k v).lookup n = d.lookup n := by
  cases hb : d.any (fun p => p.1 == k) with
  | true =>
    unfold dictInsert
    rw [if_pos hb]
    exact lookup_map_overwrite_other k v n hne d
  | false =>
    unfold dictInsert
    rw [if_neg (by simp [hb])]
    exact lookup_append_single_other k v n hne d

/-- Replaying assignment events: each key ends up at the value of the
last event that wrote it (last-write-wins), starting from `d`. -/
theorem lookup_foldl_dictInsert (n : String) :
    ∀ (evs : Events) (d : List (String × String)),
    (evs.foldl (fun d2 e => dictInsert d2 e.1 e.2) d).lookup n =
      evs.foldl (fun acc e => if e.1 = n then some e.2 else acc)
        (d.lookup n) := by
  intro evs
  induction evs with
  | nil => intro d; rfl
  | cons e evs ih =>
    intro d
    simp only [List.foldl_cons]
    rw [ih (dictInsert d e.1 e.2)]
    by_cases he : e.1 = n
    · rw [if_pos he, ← he, lookup_dictInsert_self]
    · rw [if_neg he,
        lookup_dictInsert_other d e.1 e.2 n (fun hc => he hc.symm)]

/-- `dictInsert` either keeps the key list unchanged (overwrite) or
appends the one fresh key. -/
theorem keys_dictInsert (d : List (String × String)) (k v : String) :
    ((dictInsert d k v).map Prod.fst = d.map Prod.fst) ∨
    ((dictInsert d k v).map Prod.fst = d.map Prod.fst ++ [k]
      ∧ k ∉ d.map Prod.fst) := by
  cases hb : d.any (fun p => p.1 == k) with
  | true =>
    left
    unfold dictInsert
    rw [if_pos hb, List.map_map]
    apply List.map_congr_left
    intro p _
    by_cases hpk : p.1 = k
    · have hpk' : (p.1 == k) = true := by simpa using hpk
      simp only [Function.comp_apply]
      rw [if_pos hpk']
      exact hpk.symm
    · have hpk' : (p.1 == k) = false := by simpa using hpk
      simp only [Function.comp_apply]
      rw [if_neg (by simp [hpk'])]
  | false =>
    right
    unfold dictInsert
    rw [if_neg (by simp [hb])]
    refine ⟨by simp, fun hk => ?_⟩
    obtain ⟨p, hp, hpk⟩ := List.mem_map.1 hk
    have hany : d.any (fun p => p.1 == k) = true :=
      List.any_eq_true.2 ⟨p, hp, by simpa using hpk⟩
    rw [hb] at hany
    exact Bool.false_ne_true hany

theorem foldl_dictInsert_keys_nodup :
    ∀ (evs : Events) (d : List (String × String)),
    (d.map Prod.fst).Nodup →
    ((evs.foldl (fun d2 e => dictInsert d2 e.1 e.2) d).map Prod.fst).Nodup := by
  intro evs
  induction evs with
  | nil => intro d h; exact h
  | cons e evs ih =>
    intro d h
    simp only [List.foldl_cons]
    apply ih
    rcases keys_dictInsert d e.1 e.2 with hk | ⟨hk, hnot⟩
    · rw [hk]; exact h
    · rw [hk]
      simp [List.nodup_append, h, hnot]

/-- The registry never holds two entries under the same name. -/
theorem registry_keys_nodup (evs : Events) :
    ((registryOf evs).map Prod.fst).Nodup :=
  foldl_dictInsert_keys_nodup evs [] (by simp)

/-- Claim C8: name collisions are silently overwritten — whenever the
walk completes (collisions never make it fail: the registry is
write-only, so success of `buildEvents` does not depend on the names
written), the registry holds exactly one entry per name (its key list is
duplicate-free), and the entry under each name carries the value of the
last registration event for that name; names written by a single event
keep that event's value. -/
theorem claim_C8_collision_last_write_wins (fuel : Nat)
    (schemas : List (String × SchemaNode)) (evs : Events)
    (hb : buildEvents fuel schemas = .ok evs) :
    model_defs fuel schemas = .ok (registryOf evs)
  ∧ ((registryOf evs).map Prod.fst).Nodup
  ∧ ∀ n, (registryOf evs).lookup n =
      evs.foldl (fun acc e => if e.1 = n then some e.2 else acc) none := by
  refine ⟨?_, registry_keys_nodup evs, fun n => ?_⟩
  · unfold model_defs; rw [hb]
  · have h := lookup_foldl_dictInsert n evs []
    simpa using h

theorem claim_C8_witness :
    model_defs 6 c8schemas = .ok (registryOf c8evs)
  ∧ ((registryOf c8evs).map Prod.fst).Nodup
  ∧ (registryOf c8evs).lookup "_foo" =
      some "class _foo(pydantic.BaseModel):\n    baz: int\n"
  ∧ (registryOf c8evs).lookup "Outer" =
      some "class Outer(pydantic.BaseModel):\n    foo: \"_foo\"\n" := by
  have h := claim_C8_collision_last_write_wins 6 c8schemas c8evs rfl
  exact ⟨h.1, h.2.1, (h.2.2 "_foo").trans rfl, (h.2.2 "Outer").trans rfl⟩

/-! ### Claim C7: the Writer and its separator -/

theorem NlTerminated.append (a : String) {b : String} (h : NlTerminated b) :
    NlTerminated (a ++ b) := by
  obtain ⟨t, rfl⟩ := h
  exact ⟨a ++ t, (String.append_assoc a t "\n").symm⟩

theorem NlTerminated.ne_empty {s : String} (h : NlTerminated s) : s ≠ "" := by
  obtain ⟨t, rfl⟩ := h
  intro hc
  have hlen := congrArg String.length hc
  rw [String.length_append] at hlen
  rw [show ("\n" : String).length = 1 from rfl,
    show ("" : String).length = 0 from rfl] at hlen
  omega

/-- Every docstring block is empty or ends in a newline. -/
theorem format_docstring_nl (text ind : String) :
    format_docstring text ind = "" ∨
      NlTerminated (format_docstring text ind) := by
  by_cases h : text = ""
  · left
    unfold format_docstring
    rw [if_neg (fun hc => hc h)]
  · right
    have hu : format_docstring text ind =
        (if (ind ++ "\"\"\"" ++ textwrap_fill ind text).length >
            80 - "\"\"\"".length
         then ind ++ "\"\"\"" ++ textwrap_fill ind text ++ "\n" ++ ind ++
           "\"\"\"" ++ "\n"
         else ind ++ "\"\"\"" ++ textwrap_fill ind text ++ "\"\"\"" ++ "\n") := by
      unfold format_docstring
      rw [if_pos h]
    rw [hu]
    by_cases h2 : (ind ++ "\"\"\"" ++ textwrap_fill ind text).length >
        80 - "\"\"\"".length
    · rw [if_pos h2]; exact ⟨_, rfl⟩
    · rw [if_neg h2]; exact ⟨_, rfl⟩

theorem foldl_field_lines_nl (fields : List FieldT) (hne : fields ≠ []) :
    ∀ acc : String,
    NlTerminated (fields.foldl
      (fun result f => result ++ "    " ++ field_line f ++ "\n") acc) := by
  induction fields with
  | nil => exact absurd rfl hne
  | cons f rest ih =>
    intro acc
    cases rest with
    | nil =>
      simp only [List.foldl_cons, List.foldl_nil]
      exact ⟨_, rfl⟩
    | cons g gs =>
      simp only [List.foldl_cons]
      exact ih (by simp) _

/-- Every class-definition string ends in a newline. -/
theorem classString_nl (id_ docstring : String) (fields : List FieldT)
    (hd : docstring = "" ∨ NlTerminated docstring) :
    NlTerminated (classString id_ docstring fields) := by
  cases fields with
  | nil =>
    rcases hd with rfl | hd
    · exact NlTerminated.append _ ⟨"pass", rfl⟩
    · unfold classString
      rw [if_neg (by simp [hd.ne_empty])]
      simp only [List.foldl_nil]
      exact NlTerminated.append _ hd
  | cons f rest =>
    unfold classString
    rw [if_neg (by simp)]
    exact foldl_field_lines_nl (f :: rest) (by simp) _

/-- Every registration event produced by the walk carries a
newline-terminated definition string. -/
theorem run_events_nl (fuel : Nat) :
    (∀ (s : SchemaNode) (name : String) (evs : Events) (ty : String)
       (d : Option String), run fuel (.prop s name) = .ok (evs, ty, d) →
       ∀ e ∈ evs, NlTerminated e.2)
  ∧ (∀ (ps : List (String × SchemaNode)) (evs : Events)
       (fs : List FieldT), run fuel (.fields ps) = .ok (evs, fs) →
       ∀ e ∈ evs, NlTerminated e.2)
  ∧ (∀ (s : SchemaNode) (cn : Option String) (evs : Events),
       run fuel (.schema s cn) = .ok evs →
       ∀ e ∈ evs, NlTerminated e.2) := by
  induction fuel with
  | zero =>
    refine ⟨fun s name evs ty d h => ?_, fun ps evs fs h => ?_,
      fun s cn evs h => ?_⟩ <;> exact Except.noConfusion h
  | succ fuel ih =>
    obtain ⟨ihp, ihf, ihs⟩ := ih
    refine ⟨fun s name evs ty d h e he => ?_,
      fun ps evs fs h e he => ?_, fun s cn evs h e he => ?_⟩
    · rcases heff : effType s with _ | t
      · rw [show run (fuel+1) (.prop s name) = .error .missingType from
          parse_property_missing fuel s name heff] at h
        exact Except.noConfusion h
      · cases hl : simple_types.lookup t with
        | some py =>
          rw [show run (fuel+1) (.prop s name) =
              .ok ([], py, s.default?.map pyRepr) from
            parse_property_simple fuel s name t py heff hl] at h
          have hevs : ([] : Events) = evs :=
            congrArg Prod.fst (Except.ok.inj h)
          rw [← hevs] at he
          exact absurd he (List.not_mem_nil e)
        | none =>
          by_cases ho : t = "object"
          · subst ho
            cases hrun : run fuel (.schema s (some ("_" ++ name))) with
            | error e2 =>
              have hlo : simple_types.lookup "object" = none := rfl
              simp only [run, heff, hlo, hrun] at h
              rw [if_pos trivial] at h
              exact Except.noConfusion h
            | ok evs1 =>
              rw [show run (fuel+1) (.prop s name) =
                  .ok (evs1, "\"_" ++ name ++ "\"", none) from
                parse_property_object_step fuel s name heff evs1 hrun] at h
              have hevs : evs1 = evs := congrArg Prod.fst (Except.ok.inj h)
              rw [← hevs] at he
              exact ihs s (some ("_" ++ name)) evs1 hrun e he
          · by_cases ha : t = "array"
            · subst ha
              cases hit : s.items? with
              | none =>
                rw [show run (fuel+1) (.prop s name) = .error .missingItems
                  from parse_property_array_noitems fuel s name heff hit] at h
                exact Except.noConfusion h
              | some it =>
                cases hrun : run fuel (.prop it name) with
                | error e2 =>
                  have hla : simple_types.lookup "array" = none := rfl
                  simp only [run, heff, hla, hit, hrun] at h
                  rw [if_neg (show ¬("array" : String) = "object" by decide),
                    if_pos trivial] at h
                  exact Except.noConfusion h
                | ok r =>
                  obtain ⟨evs1, ty1, d1⟩ := r
                  rw [show run (fuel+1) (.prop s name) =
                      .ok (evs1, "List[" ++ ty1 ++ "]", d1) from
                    parse_property_array_step fuel s it name heff hit
                      evs1 ty1 d1 hrun] at h
                  have hevs : evs1 = evs :=
                    congrArg Prod.fst (Except.ok.inj h)
                  rw [← hevs] at he
                  exact ihp it name evs1 ty1 d1 hrun e he
            · rw [show run (fuel+1) (.prop s name) =
                  .ok ([], "\"" ++ t ++ "\"", none) from
                parse_property_named_ref fuel s name t heff hl ho ha] at h
              have hevs : ([] : Events) = evs :=
                congrArg Prod.fst (Except.ok.inj h)
              rw [← hevs] at he
              exact absurd he (List.not_mem_nil e)
    · cases ps with
      | nil =>
        have : run (fuel+1) (.fields ([] : List (String × SchemaNode))) =
            .ok ([], []) := rfl
        rw [this] at h
        have hevs : ([] : Events) = evs := congrArg Prod.fst (Except.ok.inj h)
        rw [← hevs] at he
        exact absurd he (List.not_mem_nil e)
      | cons p rest =>
        obtain ⟨pn, psch⟩ := p
        simp only [run] at h
        cases hr1 : run fuel (.prop psch (valid_property_name pn)) with
        | error e2 => rw [hr1] at h; exact Except.noConfusion h
        | ok r1 =>
          obtain ⟨evs1, ty1, d1⟩ := r1
          rw [hr1] at h
          cases hr2 : run fuel (.fields rest) with
          | error e2 => rw [hr2] at h; exact Except.noConfusion h
          | ok r2 =>
            obtain ⟨evs2, fs2⟩ := r2
            rw [hr2] at h
            have hevs : evs1 ++ evs2 = evs :=
              congrArg Prod.fst (Except.ok.inj h)
            rw [← hevs] at he
            rcases List.mem_append.1 he with h1 | h2
            · exact ihp psch (valid_property_name pn) evs1 ty1 d1 hr1 e h1
            · exact ihf rest evs2 fs2 hr2 e h2
    · simp only [run] at h
      cases hrf : run fuel (.fields s.properties) with
      | error e2 => rw [hrf] at h; exact Except.noConfusion h
      | ok r =>
        obtain ⟨evs0, props⟩ := r
        rw [hrf] at h
        have hevs : evs0 ++ [(chooseId s.id? cn (props.map (fun f => f.1)),
            classString (chooseId s.id? cn (props.map (fun f => f.1)))
              (format_docstring s.description "    ") props)] = evs :=
          Except.ok.inj h
        rw [← hevs] at he
        rcases List.mem_append.1 he with h1 | h2
        · exact ihf s.properties evs0 props hrf e h1
        · rw [List.mem_singleton] at h2
          rw [h2]
          exact classString_nl _ _ props
            (format_docstring_nl s.description "    ")

/-- Every event of a whole build carries a newline-terminated string. -/
theorem buildEvents_nl (fuel : Nat) :
    ∀ (schemas : List (String × SchemaNode)) (evs : Events),
    buildEvents fuel schemas = .ok evs → ∀ e ∈ evs, NlTerminated e.2 := by
  intro schemas
  induction schemas with
  | nil =>
    intro evs h e he
    have hevs : ([] : Events) = evs := Except.ok.inj h
    rw [← hevs] at he
    exact absurd he (List.not_mem_nil e)
  | cons sc rest ih =>
    intro evs h e he
    obtain ⟨name, schema⟩ := sc
    simp only [buildEvents] at h
    cases hs : schema_as_string fuel schema (some name) with
    | error e2 => rw [hs] at h; exact Except.noConfusion h
    | ok evs1 =>
      rw [hs] at h
      cases hr : buildEvents fuel rest with
      | error e2 => rw [hr] at h; exact Except.noConfusion h
      | ok evs2 =>
        rw [hr] at h
        have hevs : evs1 ++ evs2 = evs := Except.ok.inj h
        rw [← hevs] at he
        rcases List.mem_append.1 he with h1 | h2
        · exact (run_events_nl fuel).2.2 schema (some name) evs1 hs e h1
        · exact ih evs2 hr e h2

theorem mem_dictInsert (d : List (String × String)) (k v : String)
    (p : String × String) (hp : p ∈ dictInsert d k v) :
    p = (k, v) ∨ p ∈ d := by
  unfold dictInsert at hp
  by_cases h : d.any (fun q => q.1 == k) = true
  · rw [if_pos h] at hp
    obtain ⟨q, hq, hqe⟩ := List.mem_map.1 hp
    by_cases hqk : q.1 = k
    · left
      rw [← hqe, if_pos (show (q.1 == k) = true by simpa using hqk)]
    · right
      rw [← hqe,
        if_neg (by simp [show (q.1 == k) = false by simpa using hqk])]
      exact hq
  · rw [if_neg h] at hp
    rcases List.mem_append.1 hp with h1 | h2
    · right; exact h1
    · left; simpa using h2

theorem mem_foldl_dictInsert :
    ∀ (evs : Events) (d : List (String × String)) (p : String × String),
    p ∈ evs.foldl (fun d2 e => dictInsert d2 e.1 e.2) d →
    (∃ e ∈ evs, p.2 = e.2) ∨ p ∈ d := by
  intro evs
  induction evs with
  | nil => intro d p hp; right; exact hp
  | cons e evs ih =>
    intro d p hp
    simp only [List.foldl_cons] at hp
    rcases ih (dictInsert d e.1 e.2) p hp with h1 | h2
    · obtain ⟨e2, he2, hpe⟩ := h1
      exact Or.inl ⟨e2, List.mem_cons_of_mem _ he2, hpe⟩
    · rcases mem_dictInsert d e.1 e.2 p h2 with h3 | h4
      · exact Or.inl ⟨e, List.mem_cons_self _ _, by rw [h3]⟩
      · exact Or.inr h4

/-- Registry values are values of registration events. -/
theorem registry_values_nl (evs : Events)
    (hevs : ∀ e ∈ evs, NlTerminated e.2) :
    ∀ p ∈ registryOf evs, NlTerminated p.2 := by
  intro p hp
  rcases mem_foldl_dictInsert evs [] p hp with ⟨e, he, hpe⟩ | h2
  · rw [hpe]; exact hevs e he
  · exact absurd h2 (List.not_mem_nil p)

theorem intercalate_go_prefix (s : String) :
    ∀ (bs : List String) (pre acc : String),
    String.intercalate.go (pre ++ acc) s bs =
      pre ++ String.intercalate.go acc s bs := by
  intro bs
  induction bs with
  | nil => intro pre acc; rfl
  | cons c cs ih =>
    intro pre acc
    simp only [String.intercalate.go]
    rw [String.append_assoc pre acc s, String.append_assoc pre (acc ++ s) c]
    exact ih pre ((acc ++ s) ++ c)

theorem intercalate_cons_cons (s a b : String) (l : List String) :
    String.intercalate s (a :: b :: l) =
      (a ++ s) ++ String.intercalate s (b :: l) := by
  show String.intercalate.go a s (b :: l) =
    (a ++ s) ++ String.intercalate.go b s l
  simp only [String.intercalate.go]
  exact intercalate_go_prefix s l (a ++ s) b

/-- Claim C7 (amended): the Writer emits the registry entries' textual
definitions in registry insertion order joined by the separator
`"\n\n"`; since every definition string carries its own trailing
newline, consecutive definitions end up separated by two blank lines
(three consecutive newline characters), not one. -/
theorem claim_C7_writer_order_and_separator (fuel : Nat)
    (schemas : List (String × SchemaNode)) (evs : Events)
    (hb : buildEvents fuel schemas = .ok evs) :
    write_models fuel schemas =
      .ok (String.intercalate "\n\n" ((registryOf evs).map (fun p => p.2)))
  ∧ (∀ p ∈ registryOf evs, NlTerminated p.2)
  ∧ (2 ≤ (registryOf evs).length →
      ∃ a b, write_models fuel schemas = .ok (a ++ "\n\n\n" ++ b)) := by
  have hreg : model_defs fuel schemas = .ok (registryOf evs) := by
    unfold model_defs; rw [hb]
  have hw : write_models fuel schemas =
      .ok (String.intercalate "\n\n"
        ((registryOf evs).map (fun p => p.2))) := by
    unfold write_models; rw [hreg]
  have hnl : ∀ p ∈ registryOf evs, NlTerminated p.2 :=
    registry_values_nl evs (buildEvents_nl fuel schemas evs hb)
  refine ⟨hw, hnl, fun hlen => ?_⟩
  obtain ⟨p, q, rest, hpq⟩ : ∃ p q rest, registryOf evs = p :: q :: rest := by
    cases hr : registryOf evs with
    | nil => rw [hr] at hlen; simp at hlen
    | cons p tl =>
      cases tl with
      | nil => rw [hr] at hlen; simp at hlen
      | cons q rest => exact ⟨p, q, rest, rfl⟩
  obtain ⟨t, hts⟩ := hnl p (by rw [hpq]; exact List.mem_cons_self _ _)
  refine ⟨t, String.intercalate "\n\n" ((q :: rest).map (fun p => p.2)), ?_⟩
  rw [hw, hpq]
  simp only [List.map_cons]
  rw [intercalate_cons_cons, hts, String.append_assoc t "\n" "\n\n"]
  rfl

/-- Counterexample to claim C7 as stated: between the two emitted
definitions stand three consecutive newline characters — two blank
lines — because the first definition ends with its own newline and the
writer joins with `"\n\n"`; the output is not the exactly-one-blank-line
text the claim demands. -/
theorem claim_C7_counterexample :
    write_models 3 c7schemas =
      .ok ("class A(pydantic.BaseModel):\n    pass" ++ "\n\n\n" ++
        "class B(pydantic.BaseModel):\n    pass\n")
  ∧ write_models 3 c7schemas ≠
      .ok ("class A(pydantic.BaseModel):\n    pass" ++ "\n\n" ++
        "class B(pydantic.BaseModel):\n    pass\n") := by
  refine ⟨rfl, fun hc => ?_⟩
  rw [show write_models 3 c7schemas =
      .ok ("class A(pydantic.BaseModel):\n    pass" ++ "\n\n\n" ++
        "class B(pydantic.BaseModel):\n    pass\n") from rfl] at hc
  exact absurd (Except.ok.inj hc) (by decide)

theorem claim_C7_witness :
    write_models 3 c7schemas =
      .ok ("class A(pydantic.BaseModel):\n    pass\n\n\nclass B(pydantic.BaseModel):\n    pass\n") :=
  (claim_C7_writer_order_and_separator 3 c7schemas c7evs rfl).1.trans rfl

/-! ### Claim C6: the sanitizer is idempotent -/

set_option maxRecDepth 8192 in
/-- No reserved word or builtin, once suffixed with the marker, is again
a reserved word or builtin (no entry of the set is another entry plus a
trailing underscore). -/
theorem keywords_no_double :
    ∀ k ∈ python_keywords, (k ++ "_") ∉ python_keywords := by decide

theorem valid_property_name_idem (x : String) :
    valid_property_name (valid_property_name x) = valid_property_name x := by
  by_cases hx : x ∈ python_keywords
  · have h1 : valid_property_name x = x ++ "_" := by
      unfold valid_property_name; rw [if_pos hx]
    rw [h1]
    unfold valid_property_name
    rw [if_neg (keywords_no_double x hx)]
  · have h1 : valid_property_name x = x := by
      unfold valid_property_name; rw [if_neg hx]
    rw [h1, h1]

/-- Claim C6 (amended): the sanitizer is idempotent on every name.  No
reserved or builtin name carries a single trailing `"_"` (dunders end in
two, which still cannot collide after suffixing), so a once-sanitized
name is never in the reserved set and a second application returns it
unchanged rather than appending a further marker. -/
theorem claim_C6_sanitizer_idempotent (x : String) :
    valid_property_name (valid_property_name x) = valid_property_name x :=
  valid_property_name_idem x

/-- Counterexample to claim C6 as stated: for every name obtained by
sanitizing a reserved or builtin name once, applying the sanitizer again
returns it unchanged — there is no witness for the claimed
non-idempotence. -/
theorem claim_C6_counterexample :
    python_keywords.all (fun n =>
      valid_property_name (valid_property_name n) ==
        valid_property_name n) = true := by
  simp only [List.all_eq_true, beq_iff_eq]
  intro n _
  exact valid_property_name_idem n

/-! ### Claim C5: docstring formatting -/

theorem nlCount_append (a b : String) :
    nlCount (a ++ b) = nlCount a + nlCount b := by
  unfold nlCount
  rw [String.data_append, List.count_append]

theorem nlCount_eq_zero {a : String} (h : Char.ofNat 10 ∉ a.data) :
    nlCount a = 0 := by
  unfold nlCount
  exact List.count_eq_zero.2 h

theorem no_nl_append {a b : String} (ha : Char.ofNat 10 ∉ a.data)
    (hb : Char.ofNat 10 ∉ b.data) : Char.ofNat 10 ∉ (a ++ b).data := by
  rw [String.data_append]
  intro hc
  rcases List.mem_append.1 hc with h | h
  · exact ha h
  · exact hb h

theorem append_empty_str (a : String) : a ++ "" = a := by
  apply String.ext
  rw [String.data_append]
  exact List.append_nil _

theorem splitWordsCore_no_ws :
    ∀ (cs cur : List Char), (∀ c ∈ cur, c.isWhitespace = false) →
    ∀ w ∈ splitWordsCore cs cur, ∀ c ∈ w.data, c.isWhitespace = false := by
  intro cs
  induction cs with
  | nil =>
    intro cur hcur w hw c hc
    by_cases he : cur.isEmpty = true
    · simp [splitWordsCore, he] at hw
    · simp only [splitWordsCore] at hw
      rw [if_neg he] at hw
      rw [List.mem_singleton] at hw
      subst hw
      exact hcur c (List.mem_reverse.1 hc)
  | cons c0 cs ih =>
    intro cur hcur w hw c hc
    by_cases hws : c0.isWhitespace = true
    · by_cases he : cur.isEmpty = true
      · simp only [splitWordsCore] at hw
        rw [if_pos hws, if_pos he] at hw
        exact ih [] (by simp) w hw c hc
      · simp only [splitWordsCore] at hw
        rw [if_pos hws, if_neg he] at hw
        rcases List.mem_cons.1 hw with hw1 | hw2
        · subst hw1
          exact hcur c (List.mem_reverse.1 hc)
        · exact ih [] (by simp) w hw2 c hc
    · simp only [splitWordsCore] at hw
      rw [if_neg hws] at hw
      refine ih (c0 :: cur) ?_ w hw c hc
      intro x hx
      rcases List.mem_cons.1 hx with rfl | hx2
      · simpa using hws
      · exact hcur x hx2

theorem splitWords_no_nl (text : String) :
    ∀ w ∈ splitWords text, Char.ofNat 10 ∉ w.data := by
  intro w hw hc
  have h := splitWordsCore_no_ws text.data [] (by simp) w hw
    (Char.ofNat 10) hc
  rw [show (Char.ofNat 10).isWhitespace = true from rfl] at h
  exact Bool.noConfusion h

theorem wrapGo_ne_nil :
    ∀ (ws : List String) (cur : String), wrapGo 70 "    " cur ws ≠ [] := by
  intro ws
  induction ws with
  | nil => intro cur; simp [wrapGo]
  | cons w ws ih =>
    intro cur
    by_cases hfit : cur.length + 1 + w.length ≤ 70
    · simp only [wrapGo]
      rw [if_pos hfit]
      exact ih _
    · simp only [wrapGo]
      rw [if_neg hfit]
      simp

theorem wrapGo_length_le :
    ∀ (ws : List String) (cur : String), cur.length ≤ 74 →
    (∀ w ∈ ws, w.length ≤ 70) →
    ∀ l ∈ wrapGo 70 "    " cur ws, l.length ≤ 74 := by
  intro ws
  induction ws with
  | nil =>
    intro cur hcur _ l hl
    simp only [wrapGo, List.mem_singleton] at hl
    subst hl
    exact hcur
  | cons w ws ih =>
    intro cur hcur hws l hl
    by_cases hfit : cur.length + 1 + w.length ≤ 70
    · simp only [wrapGo] at hl
      rw [if_pos hfit] at hl
      refine ih (cur ++ " " ++ w) ?_
        (fun x hx => hws x (List.mem_cons_of_mem _ hx)) l hl
      rw [String.length_append, String.length_append,
        show (" " : String).length = 1 from rfl]
      omega
    · simp only [wrapGo] at hl
      rw [if_neg hfit] at hl
      rcases List.mem_cons.1 hl with rfl | hl2
      · exact hcur
      · refine ih ("    " ++ w) ?_
          (fun x hx => hws x (List.mem_cons_of_mem _ hx)) l hl2
        rw [String.length_append,
          show ("    " : String).length = 4 from rfl]
        have := hws w (List.mem_cons_self _ _)
        omega

theorem wrapGo_head_le :
    ∀ (ws : List String) (cur : String), cur.length ≤ 70 →
    ∀ (l : String) (ls : List String),
    wrapGo 70 "    " cur ws = l :: ls → l.length ≤ 70 := by
  intro ws
  induction ws with
  | nil =>
    intro cur hcur l ls h
    simp only [wrapGo] at h
    rw [show ([cur] : List String) = cur :: [] from rfl] at h
    injection h with h1 _
    rw [← h1]
    exact hcur
  | cons w ws ih =>
    intro cur hcur l ls h
    by_cases hfit : cur.length + 1 + w.length ≤ 70
    · simp only [wrapGo] at h
      rw [if_pos hfit] at h
      refine ih (cur ++ " " ++ w) ?_ l ls h
      rw [String.length_append, String.length_append,
        show (" " : String).length = 1 from rfl]
      omega
    · simp only [wrapGo] at h
      rw [if_neg hfit] at h
      injection h with h1 _
      rw [← h1]
      exact hcur

theorem intercalate_go_len_ge (s : String) :
    ∀ (bs : List String) (acc : String),
    acc.length ≤ (String.intercalate.go acc s bs).length := by
  intro bs
  induction bs with
  | nil => intro acc; exact Nat.le_refl _
  | cons c cs ih =>
    intro acc
    simp only [String.intercalate.go]
    refine Nat.le_trans ?_ (ih ((acc ++ s) ++ c))
    rw [String.length_append, String.length_append]
    omega

theorem intercalate_wrapGo_len_ge :
    ∀ (ws : List String) (cur : String),
    cur.length ≤
      (String.intercalate "\n" (wrapGo 70 "    " cur ws)).length := by
  intro ws
  induction ws with
  | nil =>
    intro cur
    simp only [wrapGo]
    exact Nat.le_of_eq rfl
  | cons w ws ih =>
    intro cur
    by_cases hfit : cur.length + 1 + w.length ≤ 70
    · simp only [wrapGo]
      rw [if_pos hfit]
      refine Nat.le_trans ?_ (ih (cur ++ " " ++ w))
      rw [String.length_append, String.length_append]
      omega
    · simp only [wrapGo]
      rw [if_neg hfit]
      cases hrec : wrapGo 70 "    " ("    " ++ w) ws with
      | nil => exact absurd hrec (wrapGo_ne_nil ws ("    " ++ w))
      | cons b bs =>
        rw [show String.intercalate "\n" (cur :: b :: bs) =
            String.intercalate.go cur "\n" (b :: bs) from rfl]
        simp only [String.intercalate.go]
        refine Nat.le_trans ?_ (intercalate_go_len_ge "\n" bs ((cur ++ "\n") ++ b))
        rw [String.length_append, String.length_append]
        omega

theorem wrapGo_multi_len :
    ∀ (ws : List String) (cur l l2 : String) (ls : List String),
    wrapGo 70 "    " cur ws = l :: l2 :: ls →
    75 ≤ (String.intercalate "\n" (wrapGo 70 "    " cur ws)).length := by
  intro ws
  induction ws with
  | nil =>
    intro cur l l2 ls h
    simp [wrapGo] at h
  | cons w ws ih =>
    intro cur l l2 ls h
    by_cases hfit : cur.length + 1 + w.length ≤ 70
    · simp only [wrapGo] at h ⊢
      rw [if_pos hfit] at h ⊢
      exact ih _ l l2 ls h
    · simp only [wrapGo] at h ⊢
      rw [if_neg hfit] at h ⊢
      cases hrec : wrapGo 70 "    " ("    " ++ w) ws with
      | nil => exact absurd hrec (wrapGo_ne_nil ws ("    " ++ w))
      | cons b bs =>
        rw [intercalate_cons_cons]
        rw [String.length_append, String.length_append,
          show ("\n" : String).length = 1 from rfl]
        have h1 : ("    " ++ w).length ≤
            (String.intercalate "\n" (b :: bs)).length := by
          have h0 := intercalate_wrapGo_len_ge ws ("    " ++ w)
          rw [hrec] at h0
          exact h0
        have h2 : ("    " ++ w).length = 4 + w.length := by
          rw [String.length_append]
          rfl
        have h3 : 70 < cur.length + 1 + w.length := Nat.lt_of_not_le hfit
        omega

theorem wrapGo_no_nl :
    ∀ (ws : List String) (cur : String), Char.ofNat 10 ∉ cur.data →
    (∀ w ∈ ws, Char.ofNat 10 ∉ w.data) →
    ∀ l ∈ wrapGo 70 "    " cur ws, Char.ofNat 10 ∉ l.data := by
  intro ws
  induction ws with
  | nil =>
    intro cur hcur _ l hl
    simp only [wrapGo, List.mem_singleton] at hl
    subst hl
    exact hcur
  | cons w ws ih =>
    intro cur hcur hws l hl
    by_cases hfit : cur.length + 1 + w.length ≤ 70
    · simp only [wrapGo] at hl
      rw [if_pos hfit] at hl
      refine ih (cur ++ " " ++ w) ?_
        (fun x hx => hws x (List.mem_cons_of_mem _ hx)) l hl
      exact no_nl_append (no_nl_append hcur (by decide))
        (hws w (List.mem_cons_self _ _))
    · simp only [wrapGo] at hl
      rw [if_neg hfit] at hl
      rcases List.mem_cons.1 hl with rfl | hl2
      · exact hcur
      · refine ih ("    " ++ w) ?_
          (fun x hx => hws x (List.mem_cons_of_mem _ hx)) l hl2
        exact no_nl_append (by decide) (hws w (List.mem_cons_self _ _))

theorem nlCount_intercalate :
    ∀ (ls : List String), (∀ l ∈ ls, Char.ofNat 10 ∉ l.data) →
    ∀ a : String, Char.ofNat 10 ∉ a.data →
    nlCount (String.intercalate "\n" (a :: ls)) = ls.length := by
  intro ls
  induction ls with
  | nil =>
    intro _ a ha
    rw [show String.intercalate "\n" [a] = a from rfl]
    exact nlCount_eq_zero ha
  | cons b bs ih =>
    intro hls a ha
    rw [intercalate_cons_cons, nlCount_append, nlCount_append]
    rw [nlCount_eq_zero ha,
      show nlCount "\n" = 1 from rfl,
      ih (fun x hx => hls x (List.mem_cons_of_mem _ hx)) b
        (hls b (List.mem_cons_self _ _))]
    simp only [List.length_cons]
    omega

theorem intercalate_cons_prefix (p a : String) (xs : List String) :
    String.intercalate "\n" ((p ++ a) :: xs) =
      p ++ String.intercalate "\n" (a :: xs) := by
  show String.intercalate.go (p ++ a) "\n" xs =
    p ++ String.intercalate.go a "\n" xs
  exact intercalate_go_prefix "\n" xs p a

theorem intercalate_snoc2 :
    ∀ (xs : List String) (a y z : String),
    String.intercalate "\n" (a :: (xs ++ [y, z])) =
      String.intercalate "\n" (a :: xs) ++ "\n" ++ y ++ "\n" ++ z := by
  intro xs
  induction xs with
  | nil => intro a y z; rfl
  | cons x xs ih =>
    intro a y z
    rw [show a :: ((x :: xs) ++ [y, z]) = a :: x :: (xs ++ [y, z]) from rfl]
    rw [intercalate_cons_cons, ih x y z, intercalate_cons_cons]
    simp [String.append_assoc]

/-- Claim C5: the docstring formatter emits no delimiters for empty
input; non-empty input is word-wrapped and every emitted line stays
within 80 columns (delimiters and indent included); the block is a
single line exactly when the wrapped text plus indent and both
delimiters fits within 80 columns, in which case the whole block sits
between the delimiters on that line; otherwise the opening delimiter is
immediately followed by the wrapped text and the closing delimiter
stands on its own line.  (The wrap width itself is the stdlib default
70; the 80-column budget with delimiter allowance governs the
single-line decision and bounds every output line.) -/
theorem claim_C5_docstring_format (text : String)
    (hw : ∀ w ∈ splitWords text, w.length ≤ 70) :
    (format_docstring "" "    " = "")
  ∧ (text ≠ "" →
      (∃ ls : List String, format_docstring text "    " =
          String.intercalate "\n" ls ∧ ∀ l ∈ ls, l.length ≤ 80)
      ∧ (nlCount (format_docstring text "    ") = 1 ↔
          10 + (textwrap_fill "    " text).length ≤ 80)
      ∧ (nlCount (format_docstring text "    ") = 1 →
          format_docstring text "    " =
            "    " ++ "\"\"\"" ++ textwrap_fill "    " text ++ "\"\"\"" ++
              "\n")
      ∧ (2 ≤ nlCount (format_docstring text "    ") →
          format_docstring text "    " =
            "    " ++ "\"\"\"" ++ textwrap_fill "    " text ++ "\n" ++
              "    " ++ "\"\"\"" ++ "\n")) := by
  refine ⟨rfl, fun hne => ?_⟩
  have hu : format_docstring text "    " =
      (if ("    " ++ "\"\"\"" ++ textwrap_fill "    " text).length >
          80 - "\"\"\"".length
       then "    " ++ "\"\"\"" ++ textwrap_fill "    " text ++ "\n" ++
         "    " ++ "\"\"\"" ++ "\n"
       else "    " ++ "\"\"\"" ++ textwrap_fill "    " text ++ "\"\"\"" ++
         "\n") := by
    unfold format_docstring
    rw [if_pos hne]
  rw [show (80 - "\"\"\"".length : Nat) = 77 from rfl] at hu
  cases hsw : splitWords text with
  | nil =>
    have hX : textwrap_fill "    " text = "" := by
      unfold textwrap_fill
      rw [hsw]
      rfl
    have hres : ("    " ++ "\"\"\"" ++ textwrap_fill "    " text).length = 7 := by
      rw [hX]
      rfl
    have hfmt : format_docstring text "    " =
        "    " ++ "\"\"\"" ++ textwrap_fill "    " text ++ "\"\"\"" ++ "\n" := by
      rw [hu, if_neg (by rw [hres]; omega)]
    refine ⟨⟨["    " ++ "\"\"\"" ++ textwrap_fill "    " text ++ "\"\"\"", ""],
      ?_, ?_⟩, ?_, fun _ => hfmt, ?_⟩
    · rw [hfmt, show String.intercalate "\n"
        ["    " ++ "\"\"\"" ++ textwrap_fill "    " text ++ "\"\"\"", ""] =
        (("    " ++ "\"\"\"" ++ textwrap_fill "    " text ++ "\"\"\"") ++ "\n")
          ++ "" from rfl, append_empty_str]
    · intro l hl
      rcases List.mem_cons.1 hl with rfl | hl2
      · rw [String.length_append, hres,
          show ("\"\"\"" : String).length = 3 from rfl]
        omega
      · rw [List.mem_singleton] at hl2
        subst hl2
        decide
    · rw [hfmt, hX]
      constructor
      · intro _
        decide
      · intro _
        decide
    · intro h2
      rw [hfmt, hX] at h2
      exact absurd h2 (by decide)
  | cons w ws2 =>
    have hwle : w.length ≤ 70 := hw w (by rw [hsw]; exact List.mem_cons_self _ _)
    have hX : textwrap_fill "    " text =
        String.intercalate "\n" (wrapGo 70 "    " w ws2) := by
      unfold textwrap_fill
      rw [hsw]
      rfl
    cases hL : wrapGo 70 "    " w ws2 with
    | nil => exact absurd hL (wrapGo_ne_nil ws2 w)
    | cons l0 ltail =>
      have hl0 : l0.length ≤ 70 := wrapGo_head_le ws2 w hwle l0 ltail hL
      have hallle : ∀ l ∈ wrapGo 70 "    " w ws2, l.length ≤ 74 :=
        wrapGo_length_le ws2 w (by omega)
          (fun x hx => hw x (by rw [hsw]; exact List.mem_cons_of_mem _ hx))
      have hnonl : ∀ l ∈ wrapGo 70 "    " w ws2, Char.ofNat 10 ∉ l.data :=
        wrapGo_no_nl ws2 w
          (splitWords_no_nl text w (by rw [hsw]; exact List.mem_cons_self _ _))
          (fun x hx => splitWords_no_nl text x
            (by rw [hsw]; exact List.mem_cons_of_mem _ hx))
      cases ltail with
      | nil =>
        have hXl : textwrap_fill "    " text = l0 := by
          rw [hX, hL]
          rfl
        have hres : ("    " ++ "\"\"\"" ++
            textwrap_fill "    " text).length = 7 + l0.length := by
          rw [String.length_append, String.length_append, hXl,
            show ("    " : String).length = 4 from rfl,
            show ("\"\"\"" : String).length = 3 from rfl]
        have hfmt : format_docstring text "    " =
            "    " ++ "\"\"\"" ++ textwrap_fill "    " text ++ "\"\"\"" ++
              "\n" := by
          rw [hu, if_neg (by rw [hres]; omega)]
        have hno : Char.ofNat 10 ∉ (textwrap_fill "    " text).data := by
          rw [hXl]
          exact hnonl l0 (by rw [hL]; exact List.mem_cons_self _ _)
        have hfront : Char.ofNat 10 ∉
            ("    " ++ "\"\"\"" ++ textwrap_fill "    " text ++
              "\"\"\"").data :=
          no_nl_append (no_nl_append (no_nl_append (by decide) (by decide))
            hno) (by decide)
        have hnl1 : nlCount (format_docstring text "    ") = 1 := by
          rw [hfmt, nlCount_append, nlCount_eq_zero hfront,
            show nlCount "\n" = 1 from rfl]
        refine ⟨⟨["    " ++ "\"\"\"" ++ textwrap_fill "    " text ++
            "\"\"\"", ""], ?_, ?_⟩, ?_, fun _ => hfmt, ?_⟩
        · rw [hfmt, show String.intercalate "\n"
            ["    " ++ "\"\"\"" ++ textwrap_fill "    " text ++ "\"\"\"", ""] =
            (("    " ++ "\"\"\"" ++ textwrap_fill "    " text ++ "\"\"\"") ++
              "\n") ++ "" from rfl, append_empty_str]
        · intro l hl
          rcases List.mem_cons.1 hl with rfl | hl2
          · rw [String.length_append, hres,
              show ("\"\"\"" : String).length = 3 from rfl]
            omega
          · rw [List.mem_singleton] at hl2
            subst hl2
            decide
        · rw [hnl1, hXl]
          constructor
          · intro _
            omega
          · intro _
            rfl
        · intro h2
          rw [hnl1] at h2
          omega
      | cons l1 lrest =>
        have h75 : 75 ≤ (String.intercalate "\n"
            (wrapGo 70 "    " w ws2)).length :=
          wrapGo_multi_len ws2 w l0 l1 lrest hL
        have hfl : 75 ≤ (textwrap_fill "    " text).length := by
          rw [hX]
          exact h75
        have hfill : textwrap_fill "    " text =
            String.intercalate "\n" (l0 :: l1 :: lrest) := by
          rw [hX, hL]
        have hres : ("    " ++ "\"\"\"" ++
            textwrap_fill "    " text).length =
            7 + (textwrap_fill "    " text).length := by
          rw [String.length_append, String.length_append,
            show ("    " : String).length = 4 from rfl,
            show ("\"\"\"" : String).length = 3 from rfl]
        have hfmt : format_docstring text "    " =
            "    " ++ "\"\"\"" ++ textwrap_fill "    " text ++ "\n" ++
              "    " ++ "\"\"\"" ++ "\n" := by
          rw [hu, if_pos (by rw [hres]; omega)]
        have hnl2 : 2 ≤ nlCount (format_docstring text "    ") := by
          rw [hfmt]
          simp only [nlCount_append, show nlCount "\n" = 1 from rfl]
          omega
        refine ⟨⟨("    " ++ "\"\"\"" ++ l0) ::
            ((l1 :: lrest) ++ ["    " ++ "\"\"\"", ""]), ?_, ?_⟩,
          ?_, ?_, fun _ => hfmt⟩
        · rw [hfmt, intercalate_cons_prefix, intercalate_snoc2,
            append_empty_str, hfill]
          simp [String.append_assoc]
        · intro l hl
          rcases List.mem_cons.1 hl with rfl | hl2
          · rw [String.length_append, String.length_append,
              show ("    " : String).length = 4 from rfl,
              show ("\"\"\"" : String).length = 3 from rfl]
            omega
          · rcases List.mem_append.1 hl2 with hl3 | hl4
            · have : l ∈ wrapGo 70 "    " w ws2 := by
                rw [hL]
                exact List.mem_cons_of_mem _ hl3
              have := hallle l this
              omega
            · rcases List.mem_cons.1 hl4 with rfl | hl5
              · decide
              · rw [List.mem_singleton] at hl5
                subst hl5
                decide
        · refine iff_of_false (by omega) (by omega)
        · intro h
          exact absurd h (by omega)

theorem claim_C5_witness :
    format_docstring "" "    " = ""
  ∧ format_docstring "A ModelName instance." "    " =
      "    \"\"\"A ModelName instance.\"\"\"\n" := by
  have h := claim_C5_docstring_format "A ModelName instance." (by decide)
  refine ⟨h.1, ?_⟩
  have h2 := (h.2 (by decide)).2.2.1 (by decide)
  exact h2.trans rfl

end Verydisco
